import Mathlib

/-!
Verification of the FGA (Fast Gradient Attack) targeted graph attack,
`deeprobust/graph/targeted_attack/fga.py`, against its specification.

The attack works on a dense square adjacency matrix; entries are floats that
carry integer values here, modelled as rationals (`ℚ`).  The surrogate model,
adjacency normalization and autograd are external collaborators: one loop
iteration consumes them only through the gradient vector
`torch.autograd.grad(loss, self.adj_changes)[0]`, so they are abstracted as an
oracle `(ℕ → ℕ → ℚ) → (ℕ → ℚ)` mapping the current modified adjacency to a
length-`n` gradient vector.  Everything after that point — the sign
correction `grad * (-2*modified_row + 1)`, the zeroing `grad[target] = 0`,
`torch.argmax`, and the pair of `+=` updates — is embedded literally.
-/

/-- Dense working adjacency matrix, indexed by node (`modified_adj`). -/
abbrev Mat : Type := ℕ → ℕ → ℚ

/-- Length-`n` vector indexed by node (rows, gradients, `adj_changes`). -/
abbrev Vec : Type := ℕ → ℚ

/-- Overwrite one entry of a matrix (one cell of `modified_adj.data`). -/
def updEntry (A : Mat) (i j : ℕ) (x : ℚ) : Mat :=
  fun u v => if u = i ∧ v = j then x else A u v

/-- Overwrite one whole row (`modified_adj[target_node] = modified_row`). -/
def updRow (A : Mat) (i : ℕ) (r : Vec) : Mat :=
  fun u v => if u = i then r v else A u v

/-- `torch.argmax` over the first `n` entries of `f`: index of the first
occurrence of the maximal value (scanning indices `0, 1, …, n-1`). -/
def argmaxFirst (f : Vec) (n : ℕ) : ℕ :=
  (List.range n).foldl (fun best c => if f best < f c then c else best) 0

/-- The value `self.adj_changes` is filled with at construction
(`self.adj_changes.data.fill_(0)`). -/
def initAdjChanges : Vec := fun _ => 0

/-- `FGA.__init__`: builds `adj_changes` when attacking structure, then
`assert not self.attack_features, "not support attacking features"`.
The assertion failure is modelled as an `Except.error` carrying the assert
message; on success the stored flag and relaxation vector are returned.
(The `if self.attack_features:` branch creating `feature_changes` sits after
the assert and is unreachable.) -/
def fgaInit (attackStructure attackFeatures : Bool) :
    Except String (Bool × Vec) :=
  if attackFeatures then Except.error "not support attacking features"
  else Except.ok (attackStructure, initAdjChanges)

/-- One iteration of the loop in `FGA.attack` (attack_structure = True):

    modified_row = modified_adj[target_node] + self.adj_changes
    modified_adj[target_node] = modified_row
    grad = oracle(modified_adj)              -- surrogate + nll_loss + autograd
    grad = grad * (-2*modified_row + 1)
    grad[target_node] = 0
    grad_argmax = torch.argmax(grad)
    value = -2*modified_row[grad_argmax] + 1
    modified_adj.data[target_node][grad_argmax] += value
    modified_adj.data[grad_argmax][target_node] += value
-/
def fgaStep (n : ℕ) (adjChanges : Vec) (oracle : Mat → Vec) (t : ℕ)
    (A : Mat) : Mat :=
  let row : Vec := fun c => A t c + adjChanges c
  let A1 : Mat := updRow A t row
  let grad0 : Vec := oracle A1
  let grad1 : Vec := fun c => grad0 c * (-2 * row c + 1)
  let grad : Vec := fun c => if c = t then 0 else grad1 c
  let best : ℕ := argmaxFirst grad n
  let value : ℚ := -2 * row best + 1
  let A2 : Mat := updEntry A1 t best (A1 t best + value)
  updEntry A2 best t (A2 best t + value)

/-- The whole loop `for i in range(n_perturbations): …` of `FGA.attack` on an
`n`-node graph.  The conversions around the loop (`todense`, `to_tensor`,
`detach`, `csr_matrix`) are value-preserving, so the result is the entrywise
content of `self.modified_adj`. -/
def fgaAttack (n : ℕ) (adjChanges : Vec) (oracle : Mat → Vec) (t : ℕ)
    (A : Mat) (nPert : ℕ) : Mat :=
  (List.range nPert).foldl (fun M _ => fgaStep n adjChanges oracle t M) A

/-- `FGA.attack` with the training-index set made explicit: `idx_train` is
consumed only inside the loss `F.nll_loss(output[idx_train], labels[idx_train])`,
i.e. only by the gradient oracle; the attack code performs no check on it. -/
def fgaAttackFull (n : ℕ) (adjChanges : Vec)
    (oracleFam : List ℕ → Mat → Vec) (idxTrain : List ℕ) (t : ℕ)
    (A : Mat) (nPert : ℕ) : Mat :=
  fgaAttack n adjChanges (oracleFam idxTrain) t A nPert

/-- `FGA.attack` threading the instance state: the pair is
(`self.adj_changes`, `modified_adj`).  The loop body reads `adj_changes`
(in `modified_row` and through autograd) and assigns only `modified_adj`. -/
def fgaAttackSt (n : ℕ) (oracle : Mat → Vec) (t : ℕ) (chg : Vec)
    (A : Mat) (nPert : ℕ) : Vec × Mat :=
  (List.range nPert).foldl
    (fun s _ => (s.1, fgaStep n s.1 oracle t s.2)) (chg, A)

/-- Spec §4.2, steps 1–3: `direction[c] = -2 * current_row_value[c] + 1`,
adjusted score = raw gradient × direction elementwise, self-loop candidate
zeroed. -/
def adjustedScore (oracle : Mat → Vec) (t : ℕ) (A : Mat) : Vec :=
  fun c => if c = t then 0 else oracle A c * (-2 * A t c + 1)

/-- The GreedySelector iteration as the spec §4.2 words it (the spec side of
the refinement): direction/adjusted score/self zeroed, `best` = first index
attaining the maximum adjusted score, `delta = -2 * current_row_value[best] + 1`
added to `adjacency[target][best]` and then to `adjacency[best][target]`. -/
def specSelectorStep (n : ℕ) (oracle : Mat → Vec) (t : ℕ) (A : Mat) : Mat :=
  let best : ℕ := argmaxFirst (adjustedScore oracle t A) n
  let delta : ℚ := -2 * A t best + 1
  let A2 : Mat := updEntry A t best (A t best + delta)
  updEntry A2 best t (A2 best t + delta)

/-- The 4-node ring graph of the spec's concrete scenario:
edges 0-1, 1-2, 2-3, 3-0. -/
def ringAdj : Mat := fun u v =>
  if (u = 0 ∧ v = 1) ∨ (u = 1 ∧ v = 0) ∨ (u = 1 ∧ v = 2) ∨ (u = 2 ∧ v = 1) ∨
     (u = 2 ∧ v = 3) ∨ (u = 3 ∧ v = 2) ∨ (u = 3 ∧ v = 0) ∨ (u = 0 ∧ v = 3)
  then 1 else 0

/-- The stubbed gradient oracle of the spec's concrete scenario: always
returns the vector `[0, 5, -3, 1]`. -/
def ringOracle : Mat → Vec := fun _ c =>
  if c = 0 then 0 else if c = 1 then 5 else if c = 2 then -3 else
  if c = 3 then 1 else 0

/-- The adjacency produced by the attack in the spec's concrete scenario:
ring graph, `target_node = 0`, `n_perturbations = 1`, stubbed oracle. -/
def ringAttacked : Mat := fgaAttack 4 initAdjChanges ringOracle 0 ringAdj 1

/-- The all-zero (edgeless) adjacency matrix on any node set. -/
def zeroMat : Mat := fun _ _ => 0

/-- A stubbed gradient oracle whose adjusted scores are all non-positive:
it returns 0 at index 0 and -1 elsewhere. -/
def negOracle : Mat → Vec := fun _ c => if c = 0 then 0 else -1

/-- A gradient-oracle family indexed by `idx_train` that ignores the index
set and always favours column 1. -/
def edgeOracleFam : List ℕ → Mat → Vec := fun _ _ c => if c = 1 then 1 else 0

/-! ### Basic lemmas about the loop and the argmax -/

theorem fgaAttack_zero (n : ℕ) (chg : Vec) (oracle : Mat → Vec) (t : ℕ)
    (A : Mat) : fgaAttack n chg oracle t A 0 = A := rfl

theorem fgaAttack_succ (n : ℕ) (chg : Vec) (oracle : Mat → Vec) (t : ℕ)
    (A : Mat) (k : ℕ) :
    fgaAttack n chg oracle t A (k + 1) =
      fgaStep n chg oracle t (fgaAttack n chg oracle t A k) := by
  unfold fgaAttack
  rw [List.range_succ, List.foldl_append]
  rfl

theorem argmaxFirst_zero (f : Vec) : argmaxFirst f 0 = 0 := rfl

theorem argmaxFirst_succ (f : Vec) (n : ℕ) :
    argmaxFirst f (n + 1) =
      if f (argmaxFirst f n) < f n then n else argmaxFirst f n := by
  unfold argmaxFirst
  rw [List.range_succ, List.foldl_append]
  rfl

theorem argmaxFirst_lt (f : Vec) (n : ℕ) (hn : 0 < n) : argmaxFirst f n < n := by
  induction n with
  | zero => omega
  | succ n ih =>
    rw [argmaxFirst_succ]
    rcases Nat.eq_zero_or_pos n with h0 | hpos
    · subst h0
      rw [argmaxFirst_zero]
      split <;> omega
    · have := ih hpos
      split <;> omega

theorem argmaxFirst_le (f : Vec) (n : ℕ) :
    ∀ j < n, f j ≤ f (argmaxFirst f n) := by
  induction n with
  | zero => omega
  | succ n ih =>
    intro j hj
    rw [argmaxFirst_succ]
    by_cases h : f (argmaxFirst f n) < f n
    · rw [if_pos h]
      rcases Nat.lt_succ_iff_lt_or_eq.mp hj with hj' | hj'
      · exact le_of_lt (lt_of_le_of_lt (ih j hj') h)
      · subst hj'; exact le_refl _
    · rw [if_neg h]
      rcases Nat.lt_succ_iff_lt_or_eq.mp hj with hj' | hj'
      · exact ih j hj'
      · subst hj'; exact le_of_not_lt h

theorem argmaxFirst_first (f : Vec) (n : ℕ) :
    ∀ j < argmaxFirst f n, f j < f (argmaxFirst f n) := by
  induction n with
  | zero => rw [argmaxFirst_zero]; omega
  | succ n ih =>
    intro j hj
    rw [argmaxFirst_succ] at hj ⊢
    by_cases h : f (argmaxFirst f n) < f n
    · rw [if_pos h] at hj ⊢
      exact lt_of_le_of_lt (argmaxFirst_le f n j hj) h
    · rw [if_neg h] at hj ⊢
      exact ih j hj

/-! ### The relaxation vector is zero, so the row assignment is the identity -/

theorem updRow_self (A : Mat) (t : ℕ) : updRow A t (A t) = A := by
  funext u v
  unfold updRow
  by_cases h : u = t
  · subst h; simp
  · simp [h]

theorem updRow_add_init (A : Mat) (t : ℕ) :
    updRow A t (fun c => A t c + initAdjChanges c) = A := by
  have hrow : (fun c => A t c + initAdjChanges c) = A t := by
    funext c; simp [initAdjChanges]
  rw [hrow, updRow_self]

theorem adjustedScore_def (oracle : Mat → Vec) (t : ℕ) (A : Mat) :
    adjustedScore oracle t A =
      fun c => if c = t then 0 else oracle A c * (-2 * A t c + 1) := rfl

/-- With the relaxation vector at its constructor value (all zeros), one
iteration of the code's loop is exactly the spec's GreedySelector step. -/
theorem fgaStep_eq_spec (n : ℕ) (oracle : Mat → Vec) (t : ℕ) (A : Mat) :
    fgaStep n initAdjChanges oracle t A = specSelectorStep n oracle t A := by
  simp only [fgaStep, specSelectorStep, adjustedScore_def, initAdjChanges,
    add_zero, updRow_self]

/-- The ring graph is symmetric. -/
theorem ringAdj_symm : ∀ u v, ringAdj u v = ringAdj v u := by
  intro u v
  unfold ringAdj
  split_ifs with h1 h2 <;> first | rfl | tauto

/-- One step touches only the cells `(t, best)` and `(best, t)` (and
rewrites row `t` with its own values plus the relaxation vector). -/
theorem fgaStep_frame (n : ℕ) (chg : Vec) (oracle : Mat → Vec) (t : ℕ)
    (A : Mat) (u v : ℕ) (hu : u ≠ t) (hv : v ≠ t) :
    fgaStep n chg oracle t A u v = A u v := by
  simp only [fgaStep, updEntry, updRow]
  rw [if_neg (by tauto), if_neg (by tauto), if_neg hu]

/-- The mirrored pair of `+=` updates preserves symmetry of the matrix,
whichever cells they hit (including a coincident `best = target`). -/
theorem updPair_symm (A : Mat) (t b : ℕ) (d : ℚ) (hA : ∀ u v, A u v = A v u) :
    ∀ u v, updEntry (updEntry A t b (A t b + d)) b t
        ((updEntry A t b (A t b + d)) b t + d) u v =
      updEntry (updEntry A t b (A t b + d)) b t
        ((updEntry A t b (A t b + d)) b t + d) v u := by
  intro u v
  unfold updEntry
  split_ifs <;>
    first
      | rfl
      | omega
      | (rw [hA b t])
      | (rw [hA t b])
      | (rw [hA u v])

/-- One step of the loop preserves symmetry of the whole matrix (with the
relaxation vector at its constructor value). -/
theorem fgaStep_symm (n : ℕ) (oracle : Mat → Vec) (t : ℕ) (A : Mat)
    (hA : ∀ u v, A u v = A v u) :
    ∀ u v, fgaStep n initAdjChanges oracle t A u v =
      fgaStep n initAdjChanges oracle t A v u := by
  intro u v
  rw [fgaStep_eq_spec]
  exact updPair_symm A t (argmaxFirst (adjustedScore oracle t A) n)
    (-2 * A t (argmaxFirst (adjustedScore oracle t A) n) + 1) hA u v

/-! ### The stateful view: `adj_changes` across the loop -/

theorem fgaAttackSt_zero (n : ℕ) (oracle : Mat → Vec) (t : ℕ) (chg : Vec)
    (A : Mat) : fgaAttackSt n oracle t chg A 0 = (chg, A) := rfl

theorem fgaAttackSt_succ (n : ℕ) (oracle : Mat → Vec) (t : ℕ) (chg : Vec)
    (A : Mat) (k : ℕ) :
    fgaAttackSt n oracle t chg A (k + 1) =
      ((fgaAttackSt n oracle t chg A k).1,
        fgaStep n (fgaAttackSt n oracle t chg A k).1 oracle t
          (fgaAttackSt n oracle t chg A k).2) := by
  unfold fgaAttackSt
  rw [List.range_succ, List.foldl_append]
  rfl

theorem fgaAttackSt_fst (n : ℕ) (oracle : Mat → Vec) (t : ℕ) (chg : Vec)
    (A : Mat) (k : ℕ) : (fgaAttackSt n oracle t chg A k).1 = chg := by
  induction k with
  | zero => rfl
  | succ k ih => rw [fgaAttackSt_succ]; exact ih

theorem fgaAttackSt_snd (n : ℕ) (oracle : Mat → Vec) (t : ℕ) (chg : Vec)
    (A : Mat) (k : ℕ) :
    (fgaAttackSt n oracle t chg A k).2 = fgaAttack n chg oracle t A k := by
  induction k with
  | zero => rfl
  | succ k ih => rw [fgaAttackSt_succ, fgaAttack_succ, fgaAttackSt_fst, ih]

/-! ### Claims -/

/-- C3. For every symmetric input adjacency, symmetry is preserved after
every flip step of `attack`: at the end of each loop iteration `i` (and so
in the final output) the matrix satisfies `A[u][v] == A[v][u]` for all node
pairs `(u, v)`. -/
theorem fga_C3 (n : ℕ) (oracle : Mat → Vec) (t : ℕ) (A : Mat)
    (hA : ∀ u v, A u v = A v u) :
    ∀ i u v, fgaAttack n initAdjChanges oracle t A i u v =
      fgaAttack n initAdjChanges oracle t A i v u := by
  intro i
  induction i with
  | zero => exact hA
  | succ k ih =>
    intro u v
    rw [fgaAttack_succ]
    exact fgaStep_symm n oracle t _ ih u v

theorem fga_C3_witness :
    fgaAttack 4 initAdjChanges ringOracle 0 ringAdj 1 2 0 =
      fgaAttack 4 initAdjChanges ringOracle 0 ringAdj 1 0 2 :=
  fga_C3 4 ringOracle 0 ringAdj ringAdj_symm 1 2 0

/-- C5. For every `n_perturbations = k`, `attack` performs exactly `k` flip
operations: the loop is the `k`-fold iteration of the single-flip step, with
no early stopping, whatever gradients the oracle produces. -/
theorem fga_C5 (n : ℕ) (chg : Vec) (oracle : Mat → Vec) (t : ℕ) (A : Mat) :
    ∀ k, fgaAttack n chg oracle t A k = (fgaStep n chg oracle t)^[k] A := by
  intro k
  induction k with
  | zero => rfl
  | succ k ih => rw [fgaAttack_succ, ih, Function.iterate_succ_apply']

/-- C7. Constructing the attack with `attack_features = true` fails fast
with the assertion message "not support attacking features", for either
value of `attack_structure`; it is never silently accepted. -/
theorem fga_C7 : ∀ s : Bool,
    fgaInit s true = Except.error "not support attacking features" :=
  fun _ => rfl

/-- C8. With `n_perturbations = 0` the loop body never runs and the output
adjacency equals the input adjacency entrywise. -/
theorem fga_C8 : ∀ (n : ℕ) (chg : Vec) (oracle : Mat → Vec) (t : ℕ)
    (A : Mat) (u v : ℕ), fgaAttack n chg oracle t A 0 u v = A u v :=
  fun _ _ _ _ _ _ _ => rfl

/-- C9. Frame property: cells outside the target row and target column are
never mutated — for `u ≠ target` and `v ≠ target` the output equals the
input at `(u, v)`, for any budget and any gradients. -/
theorem fga_C9 (n : ℕ) (chg : Vec) (oracle : Mat → Vec) (t : ℕ) (A : Mat) :
    ∀ (k : ℕ) (u v : ℕ), u ≠ t → v ≠ t →
      fgaAttack n chg oracle t A k u v = A u v := by
  intro k u v hu hv
  induction k with
  | zero => rfl
  | succ k ih =>
    rw [fgaAttack_succ, fgaStep_frame n chg oracle t _ u v hu hv]
    exact ih

theorem fga_C9_witness :
    fgaAttack 4 initAdjChanges ringOracle 0 ringAdj 1 1 2 = ringAdj 1 2 :=
  fga_C9 4 initAdjChanges ringOracle 0 ringAdj 1 1 2 (by decide) (by decide)

/-- C10. The relaxation vector `adj_changes` is filled with zeros at
construction and never written afterwards: across any number of loop
iterations the stored vector is unchanged, the row assignment
`modified_adj[target] = modified_adj[target] + adj_changes` leaves every
entry as it was, the loop's result agrees with the loop on the adjacency
alone, and a second `attack` call starting from the instance's state
behaves exactly like one starting from a freshly zeroed vector. -/
theorem fga_C10 (n : ℕ) (oracle : Mat → Vec) (t : ℕ) (A B : Mat)
    (k kk : ℕ) :
    fgaInit true false = Except.ok (true, initAdjChanges) ∧
    (fgaAttackSt n oracle t initAdjChanges A k).1 = initAdjChanges ∧
    (∀ u v, updRow A t (fun c => A t c + initAdjChanges c) u v = A u v) ∧
    (fgaAttackSt n oracle t initAdjChanges A k).2 =
      fgaAttack n initAdjChanges oracle t A k ∧
    fgaAttackSt n oracle t (fgaAttackSt n oracle t initAdjChanges A k).1 B kk =
      fgaAttackSt n oracle t initAdjChanges B kk := by
  refine ⟨rfl, fgaAttackSt_fst n oracle t initAdjChanges A k, ?_,
    fgaAttackSt_snd n oracle t initAdjChanges A k, ?_⟩
  · intro u v
    rw [updRow_add_init]
  · rw [fgaAttackSt_fst]

/-- C1 (counterexample). In the concrete 4-node-ring scenario the argmax
does NOT select index 2, and the output does NOT have cell (0,2) toggled
from 0 to 1: the cell keeps its input value 0. -/
theorem fga_C1_counterexample :
    argmaxFirst (adjustedScore ringOracle 0 ringAdj) 4 ≠ 2 ∧
    ringAdj 0 2 = 0 ∧ ringAttacked 0 2 = 0 ∧ ringAttacked 2 0 = 0 := by
  norm_num [ringAttacked, fgaAttack, fgaStep, argmaxFirst, List.range_succ,
    updEntry, updRow, ringAdj, ringOracle, initAdjChanges, adjustedScore]

/-- C1 (amended). In the concrete scenario the adjusted score is
`[0, -5, -3, -1]` with the self-entry zeroed, the argmax selects index 0
(the zeroed self-entry, since every other score is negative), and the
output equals the input everywhere except the self cell (0,0), which
receives the `+1` update twice and becomes 2. -/
theorem fga_C1 :
    adjustedScore ringOracle 0 ringAdj 0 = 0 ∧
    adjustedScore ringOracle 0 ringAdj 1 = -5 ∧
    adjustedScore ringOracle 0 ringAdj 2 = -3 ∧
    adjustedScore ringOracle 0 ringAdj 3 = -1 ∧
    argmaxFirst (adjustedScore ringOracle 0 ringAdj) 4 = 0 ∧
    ringAdj 0 0 = 0 ∧ ringAttacked 0 0 = 2 ∧
    ringAttacked 0 1 = ringAdj 0 1 ∧ ringAttacked 0 2 = ringAdj 0 2 ∧
    ringAttacked 0 3 = ringAdj 0 3 ∧ ringAttacked 1 0 = ringAdj 1 0 ∧
    ringAttacked 1 1 = ringAdj 1 1 ∧ ringAttacked 1 2 = ringAdj 1 2 ∧
    ringAttacked 1 3 = ringAdj 1 3 ∧ ringAttacked 2 0 = ringAdj 2 0 ∧
    ringAttacked 2 1 = ringAdj 2 1 ∧ ringAttacked 2 2 = ringAdj 2 2 ∧
    ringAttacked 2 3 = ringAdj 2 3 ∧ ringAttacked 3 0 = ringAdj 3 0 ∧
    ringAttacked 3 1 = ringAdj 3 1 ∧ ringAttacked 3 2 = ringAdj 3 2 ∧
    ringAttacked 3 3 = ringAdj 3 3 := by
  norm_num [ringAttacked, fgaAttack, fgaStep, argmaxFirst, List.range_succ,
    updEntry, updRow, ringAdj, ringOracle, initAdjChanges, adjustedScore]

/-- C2. The target self-entry IS selected and modified when every non-self
adjusted score is negative: on the edgeless 2-node graph with target 0 and
an oracle returning `[0, -1]`, one perturbation sets cell (0,0) to 2
(the `+= 1` applied twice), although the input had 0 there. -/
theorem fga_C2 :
    argmaxFirst (adjustedScore negOracle 0 zeroMat) 2 = 0 ∧
    zeroMat 0 0 = 0 ∧
    fgaAttack 2 initAdjChanges negOracle 0 zeroMat 1 0 0 = 2 := by
  norm_num [fgaAttack, fgaStep, argmaxFirst, List.range_succ,
    updEntry, updRow, zeroMat, negOracle, initAdjChanges, adjustedScore]

/-- C4. Each loop iteration is the GreedySelector of the spec: with the
relaxation vector at its constructor value the code step equals the spec
step built from `direction[c] = -2*row[c]+1`, elementwise product, self
zeroed; the selected index is in range and is the first index attaining the
maximum adjusted score; and when it differs from the target the delta
`-2*row[best]+1` is added (not set, not clamped) to both mirrored cells. -/
theorem fga_C4 (n : ℕ) (oracle : Mat → Vec) (t : ℕ) (A : Mat) (hn : 0 < n) :
    (∀ u v, fgaStep n initAdjChanges oracle t A u v =
      specSelectorStep n oracle t A u v) ∧
    argmaxFirst (adjustedScore oracle t A) n < n ∧
    (∀ j, j < n → adjustedScore oracle t A j ≤
      adjustedScore oracle t A (argmaxFirst (adjustedScore oracle t A) n)) ∧
    (∀ j, j < argmaxFirst (adjustedScore oracle t A) n →
      adjustedScore oracle t A j <
        adjustedScore oracle t A (argmaxFirst (adjustedScore oracle t A) n)) ∧
    (argmaxFirst (adjustedScore oracle t A) n ≠ t →
      specSelectorStep n oracle t A t (argmaxFirst (adjustedScore oracle t A) n) =
        A t (argmaxFirst (adjustedScore oracle t A) n) +
          (-2 * A t (argmaxFirst (adjustedScore oracle t A) n) + 1) ∧
      specSelectorStep n oracle t A (argmaxFirst (adjustedScore oracle t A) n) t =
        A (argmaxFirst (adjustedScore oracle t A) n) t +
          (-2 * A t (argmaxFirst (adjustedScore oracle t A) n) + 1)) := by
  set b := argmaxFirst (adjustedScore oracle t A) n with hb
  refine ⟨fun u v => by rw [fgaStep_eq_spec], argmaxFirst_lt _ n hn,
    argmaxFirst_le _ n, argmaxFirst_first _ n, fun hbt => ?_⟩
  have h1 : ¬(t = b ∧ b = t) := fun h => hbt h.2
  have h2 : ¬(b = t ∧ t = b) := fun h => hbt h.1
  constructor
  · show specSelectorStep n oracle t A t b = A t b + (-2 * A t b + 1)
    simp only [specSelectorStep, updEntry, ← hb]
    rw [if_neg h1]
    simp
  · show specSelectorStep n oracle t A b t = A b t + (-2 * A t b + 1)
    simp only [specSelectorStep, updEntry, ← hb]
    simp [h2]

theorem fga_C4_witness :
    0 < 4 ∧ argmaxFirst (adjustedScore ringOracle 0 ringAdj) 4 < 4 :=
  ⟨by decide, (fga_C4 4 ringOracle 0 ringAdj (by decide)).2.1⟩

/-- C6. The attack performs no emptiness check on `idx_train`: with an
empty training-index list it neither raises nor stops before the gradient
step — the loop runs and flips an edge exactly as with any index list. -/
theorem fga_C6 :
    zeroMat 0 1 = 0 ∧
    fgaAttackFull 2 initAdjChanges edgeOracleFam [] 0 zeroMat 1 0 1 = 1 ∧
    fgaAttackFull 2 initAdjChanges edgeOracleFam [] 0 zeroMat 1 1 0 = 1 := by
  norm_num [fgaAttackFull, fgaAttack, fgaStep, argmaxFirst, List.range_succ,
    updEntry, updRow, zeroMat, edgeOracleFam, initAdjChanges]
